import Mathlib

/-!
Shallow embedding of the build-signals / critical-path engine
(`app/buck2_build_signals_impl/src/lib.rs`).

Durations are modelled as natural numbers (`Duration` in Rust is a
non-negative quantity; `saturating_sub` becomes truncated `Nat`
subtraction, `+` becomes `Nat` addition).  Hash maps are modelled as
association lists whose list order stands in for the (unspecified)
iteration order of the Rust `HashMap`; `insert` replaces the entry in
place.  The heterogeneous key payloads (`BuildKey`, `AnalysisKey`, ...)
are modelled by `Nat` payloads: equality and hashing in the source are
structural over the payload, which `Nat` equality captures.
-/

set_option autoImplicit false

deriving instance DecidableEq for Except

namespace BuildSignals

/-- Durations, as a natural number of time units. -/
abbrev Duration := Nat

/-- Model of a `RegisteredAction` handle (opaque; only identity matters). -/
abbrev Action := Nat

/-- Model of a `SpanId`. -/
abbrev Span := Nat

/-- Model of a `PackageLabel`. -/
abbrev PackageLabel := Nat

/-- Modelled from the spec: `NodeDuration` lives in
`buck2_build_api::build_listener` which is not under `src/`.  Per §3 of
the spec it is a pair `(user, total)` of non-negative durations. -/
structure NodeDuration where
  user : Duration
  total : Duration
deriving DecidableEq, Repr

/-- Modelled from the spec: the distinguished critical-path duration of a
`NodeDuration` uses the `total` component (§3, and §6: the summary always
sets `uses_total_duration = true`). -/
def NodeDuration.critical_path_duration (d : NodeDuration) : Duration := d.total

/-- Modelled from the spec: `NodeDuration::zero()` is `(0, 0)`. -/
def NodeDuration.zero : NodeDuration := ⟨0, 0⟩

/-- A node in the critical path graph (`enum NodeKey`, lib.rs:72-85).
Payloads are modelled by `Nat`; `InterpreterResultsKey`'s payload is a
package label. -/
inductive NodeKey where
  | BuildKey (k : Nat)
  | AnalysisKey (k : Nat)
  | EnsureProjectedArtifactKey (k : Nat)
  | EnsureTransitiveSetProjectionKey (k : Nat)
  | DeferredCompute (k : Nat)
  | DeferredResolve (k : Nat)
  | ConfiguredTargetNodeKey (k : Nat)
  | InterpreterResultsKey (pkg : PackageLabel)
  | Materialization (k : Nat)
deriving DecidableEq, Repr

/-- The per-node payload stored in graphs (`struct NodeData`, lib.rs:685-689). -/
structure NodeData where
  action : Option Action
  duration : NodeDuration
  span_ids : List Span
deriving DecidableEq, Repr

/-- `struct CriticalPathNode<TKey, TValue>` (lib.rs:284-290): the
aggregated (cumulative) duration, the node's value, and the predecessor
pointer. -/
structure CriticalPathNode (K V : Type) where
  duration : Duration
  value : V
  prev : Option K
deriving DecidableEq, Repr

/-! ### Association-list model of `HashMap` -/

/-- Lookup in an association list (model of `HashMap::get`). -/
def alookup {K V : Type} [DecidableEq K] : List (K × V) → K → Option V
  | [], _ => none
  | (k, v) :: rest, key => if key = k then some v else alookup rest key

/-- Insert in an association list, replacing any existing entry for the
key (model of `HashMap::insert`). -/
def ainsert {K V : Type} [DecidableEq K] : List (K × V) → K → V → List (K × V)
  | [], key, val => [(key, val)]
  | (k, v) :: rest, key, val =>
    if key = k then (key, val) :: rest else (k, v) :: ainsert rest key val

/-- Insert only when the key is absent (model of
`HashMap::entry(k).or_insert_with(v)`). -/
def insertIfAbsent {K V : Type} [DecidableEq K] (m : List (K × V)) (key : K) (val : V) :
    List (K × V) :=
  match alookup m key with
  | some _ => m
  | none => m ++ [(key, val)]

/-- Deduplication keeping the first occurrence of each element, in order
(model of itertools `unique()`). -/
def uniqueFirst {α : Type} [DecidableEq α] : List α → List α
  | [] => []
  | x :: xs => x :: (uniqueFirst xs).filter (fun y => decide (y ≠ x))

/-- Model of Rust's `Iterator::max_by_key`: among elements with the
maximal key, the LAST one is returned (per the Rust documentation). -/
def maxByKeyLast {α : Type} (f : α → Nat) : List α → Option α
  | [] => none
  | x :: xs =>
    match maxByKeyLast f xs with
    | none => some x
    | some y => if f y < f x then some x else some y

/-- Follows the spec's words (for comparison with `maxByKeyLast`):
"Choose the dep with the maximum duration; ties broken by first-seen
order" — among elements with the maximal key, the FIRST one is chosen. -/
def maxByKeyFirstSeen {α : Type} (f : α → Nat) : List α → Option α
  | [] => none
  | x :: xs =>
    match maxByKeyFirstSeen f xs with
    | none => some x
    | some y => if f y ≤ f x then some x else some y

/-! ### The default backend (`struct DefaultBackend`, lib.rs:596-675) -/

/-- State of the default backend. -/
structure DefaultBackend where
  predecessors : List (NodeKey × CriticalPathNode NodeKey NodeData)
  num_nodes : Nat
  num_edges : Nat
deriving Repr

/-- `DefaultBackend::new()`. -/
def DefaultBackend.new : DefaultBackend := ⟨[], 0, 0⟩

/-- The deduplicated dependencies that have an existing predecessor
entry, paired with that entry's cumulative duration (the `filter_map`
inside `DefaultBackend::process_node`, lib.rs:621-627). -/
def DefaultBackend.foundDeps (s : DefaultBackend) (dep_keys : List NodeKey) :
    List (NodeKey × Duration) :=
  (uniqueFirst dep_keys).filterMap
    (fun node_key => (alookup s.predecessors node_key).map (fun n => (node_key, n.duration)))

/-- `DefaultBackend::process_node` (lib.rs:613-651): deduplicate the
deps, count one edge per deduplicated dep, pick the dep with the largest
cumulative duration among those already present (Rust `max_by_key`:
last maximal element), and insert the node with cumulative duration
`ancestor + critical_path_duration` (or just `critical_path_duration`
when no dep was found), incrementing `num_nodes` unconditionally. -/
def DefaultBackend.process_node (s : DefaultBackend) (key : NodeKey)
    (value : Option Action) (duration : NodeDuration) (dep_keys : List NodeKey)
    (span_ids : List Span) : DefaultBackend :=
  let deps := uniqueFirst dep_keys
  let longest_ancestor := maxByKeyLast (fun d => d.2) (s.foundDeps dep_keys)
  let v : NodeData := ⟨value, duration, span_ids⟩
  let node : CriticalPathNode NodeKey NodeData :=
    match longest_ancestor with
    | some (k, ancestor_duration) =>
      ⟨ancestor_duration + duration.critical_path_duration, v, some k⟩
    | none => ⟨duration.critical_path_duration, v, none⟩
  { predecessors := ainsert s.predecessors key node
    num_nodes := s.num_nodes + 1
    num_edges := s.num_edges + deps.length }

/-! ### `extract_critical_path` (lib.rs:301-336)

The Rust loop is modelled with explicit fuel; `preds.length + 2` units of
fuel are provably enough (each continuing iteration visits a fresh key of
the map), so the fuel-exhaustion case, kept as a distinct `Except.error`
value, is unreachable — proved below. -/

section ExtractCriticalPath

variable {K V : Type} [DecidableEq K]

/-- One step of the predecessor walk: look the key up, follow `prev`. -/
def stepCP (preds : List (K × CriticalPathNode K V)) (v : K) : Option K :=
  (alookup preds v).bind (fun n => n.prev)

/-- The sequence of nodes visited by the `prev`-pointer walk (ignoring
the cycle check), bounded by fuel.  A key that is absent from the map is
still visited (the walk stops right after it). -/
def chainList (preds : List (K × CriticalPathNode K V)) : Nat → Option K → List K
  | 0, _ => []
  | _fuel + 1, none => []
  | fuel + 1, some v => v :: chainList preds fuel (stepCP preds v)

/-- The entries the walk pushes onto `path`, in visit order: a key is
pushed together with its stored value and cumulative duration exactly
when it is present in the map. -/
def chainEntries (preds : List (K × CriticalPathNode K V)) :
    Nat → Option K → List (K × V × Duration)
  | 0, _ => []
  | _fuel + 1, none => []
  | fuel + 1, some v =>
    match alookup preds v with
    | none => []
    | some n => (v, n.value, n.duration) :: chainEntries preds fuel n.prev

/-- The `while let Some(v) = tail.take()` loop of `extract_critical_path`
(lib.rs:315-327), with fuel.  `none` means the fuel ran out. -/
def walkCP (preds : List (K × CriticalPathNode K V)) :
    Nat → Option K → List K → List (K × V × Duration) →
    Option (Except String (List (K × V × Duration)))
  | _, none, _, path => some (Except.ok path)
  | 0, some _, _, _ => none
  | fuel + 1, some v, visited, path =>
    if v ∈ visited then some (Except.error "Cycle in critical path: visited twice")
    else
      match alookup preds v with
      | none => some (Except.ok path)
      | some node =>
        walkCP preds fuel node.prev (v :: visited) (path ++ [(v, node.value, node.duration)])

/-- Helper for the cumulative-to-contribution conversion: each element's
duration is replaced by its saturating difference with the previous
element's duration. -/
def diffGo : (K × V × Duration) → List (K × V × Duration) → List (K × V × Duration)
  | _, [] => []
  | prev, cur :: rest => (cur.1, cur.2.1, cur.2.2 - prev.2.2) :: diffGo cur rest

/-- The `for i in (1..path.len()).rev()` loop of `extract_critical_path`
(lib.rs:331-333): take saturating differences of adjacent elements to
recover per-node contributions from cumulative sums; the first element is
kept unchanged. -/
def diffAdjacent : List (K × V × Duration) → List (K × V × Duration)
  | [] => []
  | x :: xs => x :: diffGo x xs

/-- The start of the walk: the key with the maximum cumulative duration
(`max_by_key` over the map's iteration order, lib.rs:307-310). -/
def startKey (preds : List (K × CriticalPathNode K V)) : Option K :=
  (maxByKeyLast (fun p => p.2.duration) preds).map (fun p => p.1)

/-- `extract_critical_path` (lib.rs:301-336). -/
def extract_critical_path (preds : List (K × CriticalPathNode K V)) :
    Except String (List (K × V × Duration)) :=
  match walkCP preds (preds.length + 2) (startKey preds) [] [] with
  | some (Except.ok path) => Except.ok (diffAdjacent path.reverse)
  | some (Except.error m) => Except.error m
  | none => Except.error "fuel exhausted"

/-- The visited chain of `extract_critical_path`: the `prev`-pointer
chain starting from the maximum-cumulative-duration node. -/
def chainOf (preds : List (K × CriticalPathNode K V)) : List K :=
  chainList preds (preds.length + 2) (startKey preds)

/-- The `prev`-pointer chain starting from the maximum-cumulative-duration
node revisits a node. -/
def Revisits (preds : List (K × CriticalPathNode K V)) : Prop :=
  ¬ (chainOf preds).Nodup

/-- The predecessors map is acyclic: from any key of the map, the
`prev`-pointer chain never revisits a node. -/
def Acyclic (preds : List (K × CriticalPathNode K V)) : Prop :=
  ∀ k, k ∈ preds.map Prod.fst → (chainList preds (preds.length + 2) (some k)).Nodup

end ExtractCriticalPath

/-! ### Evaluations and load enrichment (lib.rs:156-175, 484-518) -/

/-- The load result attached to an `InterpreterResultsKey` evaluation:
for each target of the loaded package, the list of packages of its deps
(model of `EvaluationResult::targets().values()` and
`target.deps().map(|t| t.pkg())`). -/
abbrev LoadResult := List (List PackageLabel)

/-- `struct Evaluation` (lib.rs:156-175). -/
structure Evaluation where
  key : NodeKey
  duration : NodeDuration
  dep_keys : List NodeKey
  spans : List Span
  action : Option Action
  load_result : Option LoadResult
deriving DecidableEq, Repr

/-- One `first_edge_to_load` insertion attempt of `enrich_load`
(lib.rs:498-506): dependency packages equal to the loading package are
skipped, others are inserted only if absent ("first writer wins"). -/
def loadInsertStep (pkg : PackageLabel) (m : List (PackageLabel × PackageLabel))
    (dep_pkg : PackageLabel) : List (PackageLabel × PackageLabel) :=
  if dep_pkg = pkg then m else insertIfAbsent m dep_pkg pkg

/-- `BuildSignalReceiver::enrich_load` (lib.rs:484-518), acting on the
`first_edge_to_load` map and the evaluation.  Returns the updated map and
the (possibly dep-enriched) evaluation. -/
def enrich_load (m : List (PackageLabel × PackageLabel)) (e : Evaluation) :
    List (PackageLabel × PackageLabel) × Evaluation :=
  match e.key with
  | NodeKey.InterpreterResultsKey pkg =>
    let m2 :=
      match e.load_result with
      | some load_result => (uniqueFirst load_result.flatten).foldl (loadInsertStep pkg) m
      | none => m
    match alookup m2 pkg with
    | some first_edge =>
      (m2, { e with dep_keys := e.dep_keys ++ [NodeKey.InterpreterResultsKey first_edge] })
    | none => (m2, e)
  | _ => (m, e)

/-- The `first_edge_to_load` map after the receiver has processed a
sequence of evaluations, starting from the given map. -/
def processLoads (m : List (PackageLabel × PackageLabel)) (evs : List Evaluation) :
    List (PackageLabel × PackageLabel) :=
  evs.foldl (fun acc e => (enrich_load acc e).1) m

/-- The first package `p` in the evaluation sequence whose load result
listed `d` as a dependency package with `d ≠ p` (the package that
"discovered" `d`). -/
def firstLister (d : PackageLabel) : List Evaluation → Option PackageLabel
  | [] => none
  | e :: es =>
    match e.key, e.load_result with
    | NodeKey.InterpreterResultsKey p, some load_result =>
      if d ∈ load_result.flatten ∧ d ≠ p then some p else firstLister d es
    | _, _ => firstLister d es

/-! ### The emitted summary (`run_and_log`, lib.rs:389-453) -/

/-- The typed description of one critical-path report entry
(`buck2_data::critical_path_entry2::Entry`); payload projections are
abbreviated to the identifying numbers. -/
inductive EntryKind where
  | ActionExecution (owner : Nat) (name : Action)
  | Analysis (target : Nat)
  | Materialization (owner : Nat)
  | Load (package : PackageLabel)
  | ComputeCriticalPath
deriving DecidableEq, Repr

/-- The `match key` of the `filter_map` in `run_and_log`
(lib.rs:391-432): which critical-path entries produce a report entry.
`BuildKey` entries require an action (`data.action.as_ref()?`); the five
helper variants are omitted. -/
def entryOf (key : NodeKey) (data : NodeData) : Option EntryKind :=
  match key with
  | NodeKey.BuildKey k => data.action.map (fun a => EntryKind.ActionExecution k a)
  | NodeKey.AnalysisKey k => some (EntryKind.Analysis k)
  | NodeKey.Materialization k => some (EntryKind.Materialization k)
  | NodeKey.InterpreterResultsKey pkg => some (EntryKind.Load pkg)
  | NodeKey.EnsureProjectedArtifactKey _ => none
  | NodeKey.EnsureTransitiveSetProjectionKey _ => none
  | NodeKey.DeferredCompute _ => none
  | NodeKey.DeferredResolve _ => none
  | NodeKey.ConfiguredTargetNodeKey _ => none

/-- One record of the emitted summary (`buck2_data::CriticalPathEntry2`,
lib.rs:438-451). -/
structure CriticalPathEntry2 where
  span_ids : List Span
  duration : Duration
  user_duration : Duration
  total_duration : Duration
  potential_improvement_duration : Option Duration
  entry : EntryKind
deriving DecidableEq, Repr

/-- The mapping of an entry to its summary record (lib.rs:437-452). -/
def toEntry2 (x : EntryKind × NodeData × Option Duration) : CriticalPathEntry2 :=
  ⟨x.2.1.span_ids, x.2.1.duration.critical_path_duration, x.2.1.duration.user,
    x.2.1.duration.total, x.2.2, x.1⟩

/-- The synthetic `ComputeCriticalPath` meta entry's data (lib.rs:374-381). -/
def metaEntryData (compute_elapsed : Duration) : NodeData :=
  ⟨none, ⟨0, compute_elapsed⟩, []⟩

/-- The `critical_path2` list built by `run_and_log` (lib.rs:389-453):
filter-map the critical path into typed entries, chain the synthetic
meta entry, and map everything to summary records. -/
def critical_path2 (cp : List (NodeKey × NodeData × Option Duration))
    (compute_elapsed : Duration) : List CriticalPathEntry2 :=
  ((cp.filterMap (fun x => (entryOf x.1 x.2.1).map (fun e => (e, x.2.1, x.2.2)))) ++
    [(EntryKind.ComputeCriticalPath, metaEntryData compute_elapsed, some compute_elapsed)]).map
    toEntry2

/-- Follows the spec's words (for comparison with `entryOf`): an entry is
omitted from the report iff its key is `EnsureProjectedArtifactKey`,
`EnsureTransitiveSetProjectionKey`, `DeferredCompute`, `DeferredResolve`
or `ConfiguredTargetNodeKey`, or is a `BuildKey` with no action. -/
def omittedBySpec (key : NodeKey) (data : NodeData) : Bool :=
  match key with
  | NodeKey.EnsureProjectedArtifactKey _ => true
  | NodeKey.EnsureTransitiveSetProjectionKey _ => true
  | NodeKey.DeferredCompute _ => true
  | NodeKey.DeferredResolve _ => true
  | NodeKey.ConfiguredTargetNodeKey _ => true
  | NodeKey.BuildKey _ => data.action.isNone
  | _ => false

/-! ### The longest-path-graph backend (lib.rs:679-742)

`GraphBuilder` and `PushError` come from `buck2_critical_path`, which is
not under `src/`; they are modelled from the spec (§4.8, §7). -/

/-- `buck2_critical_path::PushError`. -/
inductive PushError where
  | Overflow
  | DuplicateKey
deriving DecidableEq, Repr

/-- Modelled from the spec: `buck2_critical_path::GraphBuilder` (not
under `src/`) accumulates one vertex per key with its payload and a
directed edge from each node to each of its deps; vertex/edge indices
can be exhausted, so the builder carries capacities. -/
structure GraphBuilder where
  vertex_cap : Nat
  edge_cap : Nat
  keys : List NodeKey
  data : List NodeData
  edges : List (NodeKey × NodeKey)
deriving DecidableEq, Repr

/-- Modelled from the spec: `GraphBuilder::push` fails with
`DuplicateKey` on a key already pushed and with `Overflow` on vertex or
edge index exhaustion; otherwise it appends the vertex and its dep
edges. -/
def GraphBuilder.push (b : GraphBuilder) (key : NodeKey) (deps : List NodeKey)
    (d : NodeData) : Except PushError GraphBuilder :=
  if key ∈ b.keys then Except.error PushError.DuplicateKey
  else if b.vertex_cap < b.keys.length + 1 ∨ b.edge_cap < b.edges.length + deps.length then
    Except.error PushError.Overflow
  else
    Except.ok
      { b with
        keys := b.keys ++ [key]
        data := b.data ++ [d]
        edges := b.edges ++ deps.map (fun dk => (key, dk)) }

/-- State of `struct LongestPathGraphBackend` (lib.rs:679-682).  The
soft errors emitted by `soft_error!` are counted explicitly. -/
structure LongestPathGraphBackend where
  builder : Except PushError GraphBuilder
  top_level_analysis : List (NodeKey × List NodeKey)
  soft_errors : Nat
deriving Repr

/-- `LongestPathGraphBackend::process_node` (lib.rs:707-742): a poisoned
backend drops the call; a duplicate key records a soft error and keeps
the builder unchanged; an overflow poisons the backend. -/
def LongestPathGraphBackend.process_node (s : LongestPathGraphBackend) (key : NodeKey)
    (action : Option Action) (duration : NodeDuration) (dep_keys : List NodeKey)
    (span_ids : List Span) : LongestPathGraphBackend :=
  match s.builder with
  | Except.error _ => s
  | Except.ok b =>
    match b.push key dep_keys ⟨action, duration, span_ids⟩ with
    | Except.ok b2 => { s with builder := Except.ok b2 }
    | Except.error PushError.DuplicateKey => { s with soft_errors := s.soft_errors + 1 }
    | Except.error PushError.Overflow => { s with builder := Except.error PushError.Overflow }

/-! ### The activation tracker (lib.rs:87-110, 209-281) -/

/-- The opaque `&dyn Any` keys handed to `key_activated`: the eight
downcast targets of `NodeKey::from_any`, plus everything else. -/
inductive AnyKey where
  | BuildKey (k : Nat)
  | AnalysisKey (k : Nat)
  | EnsureProjectedArtifactKey (k : Nat)
  | EnsureTransitiveSetProjectionKey (k : Nat)
  | DeferredCompute (k : Nat)
  | DeferredResolve (k : Nat)
  | ConfiguredTargetNodeKey (k : Nat)
  | InterpreterResultsKey (pkg : PackageLabel)
  | Unrecognized (k : Nat)
deriving DecidableEq, Repr

/-- `NodeKey::from_any` (lib.rs:88-110): the downcast chain over the
eight recognized key kinds; anything else yields `none`. -/
def NodeKey.from_any : AnyKey → Option NodeKey
  | AnyKey.BuildKey k => some (NodeKey.BuildKey k)
  | AnyKey.AnalysisKey k => some (NodeKey.AnalysisKey k)
  | AnyKey.EnsureProjectedArtifactKey k => some (NodeKey.EnsureProjectedArtifactKey k)
  | AnyKey.EnsureTransitiveSetProjectionKey k => some (NodeKey.EnsureTransitiveSetProjectionKey k)
  | AnyKey.DeferredCompute k => some (NodeKey.DeferredCompute k)
  | AnyKey.DeferredResolve k => some (NodeKey.DeferredResolve k)
  | AnyKey.ConfiguredTargetNodeKey k => some (NodeKey.ConfiguredTargetNodeKey k)
  | AnyKey.InterpreterResultsKey pkg => some (NodeKey.InterpreterResultsKey pkg)
  | AnyKey.Unrecognized _ => none

/-- A `NodeKey` is recognized when it is one of the eight variants that
`NodeKey::from_any` can produce (everything but `Materialization`). -/
def NodeKey.recognized : NodeKey → Bool
  | NodeKey.Materialization _ => false
  | _ => true

/-- The variant-specific activation payloads (`BuildKeyActivationData`,
`AnalysisKeyActivationData`, `IntepreterResultsKeyActivationData`),
plus a payload of any other type (whose downcasts all fail). -/
inductive ActivationPayload where
  | BuildKeyActivationData (action : Action) (duration : NodeDuration) (spans : List Span)
  | AnalysisKeyActivationData (duration : Duration) (spans : List Span)
  | IntepreterResultsKeyActivationData (duration : Duration)
      (result : Except Unit LoadResult) (spans : List Span)
  | OtherPayload
deriving Repr

/-- Modelled from the spec: `dice::ActivationData` (not under `src/`) is
either an evaluated activation carrying an optional opaque payload, or a
cached/not-run activation (§6). -/
inductive ActivationData where
  | Evaluated (payload : Option ActivationPayload)
  | Cached
deriving Repr

/-- `BuildSignalSender::key_activated` (lib.rs:213-280), returning the
`Evaluation` sent on the channel, or `none` when the key is not
recognized and no signal is sent. -/
def key_activated (key : AnyKey) (deps : List AnyKey) (activation_data : ActivationData) :
    Option Evaluation :=
  match NodeKey.from_any key with
  | none => none
  | some k =>
    let signal : Evaluation :=
      { key := k
        action := none
        duration := NodeDuration.zero
        dep_keys := deps.filterMap NodeKey.from_any
        spans := []
        load_result := none }
    some
      (match activation_data with
      | ActivationData.Evaluated payload =>
        match payload with
        | some (ActivationPayload.BuildKeyActivationData action duration spans) =>
          { signal with action := some action, duration := duration, spans := spans }
        | some (ActivationPayload.AnalysisKeyActivationData duration spans) =>
          { signal with duration := ⟨duration, duration⟩, spans := spans }
        | some (ActivationPayload.IntepreterResultsKeyActivationData duration result spans) =>
          { signal with
              duration := ⟨duration, duration⟩
              load_result := result.toOption
              spans := spans }
        | some ActivationPayload.OtherPayload => signal
        | none => signal
      | ActivationData.Cached => signal)

/-! ### Lemmas about the association-list operations -/

section AListLemmas

variable {K V : Type} [DecidableEq K]

theorem alookup_mem {m : List (K × V)} {k : K} {v : V} (h : alookup m k = some v) :
    (k, v) ∈ m := by
  induction m with
  | nil => simp [alookup] at h
  | cons p rest ih =>
    obtain ⟨a, b⟩ := p
    by_cases hk : k = a
    · subst hk
      simp [alookup] at h
      subst h
      exact List.mem_cons_self _ _
    · simp [alookup, hk] at h
      exact List.mem_cons_of_mem _ (ih h)

theorem alookup_mem_keys {m : List (K × V)} {k : K} {v : V} (h : alookup m k = some v) :
    k ∈ m.map Prod.fst := by
  have := alookup_mem h
  exact List.mem_map.mpr ⟨(k, v), this, rfl⟩

theorem alookup_append {m l : List (K × V)} {k : K} :
    alookup (m ++ l) k =
      match alookup m k with
      | some v => some v
      | none => alookup l k := by
  induction m with
  | nil => simp [alookup]
  | cons p rest ih =>
    obtain ⟨a, b⟩ := p
    by_cases hk : k = a
    · simp [alookup, hk]
    · simp [alookup, hk, ih]

theorem alookup_ainsert_self {m : List (K × V)} {k : K} {v : V} :
    alookup (ainsert m k v) k = some v := by
  induction m with
  | nil => simp [ainsert, alookup]
  | cons p rest ih =>
    obtain ⟨a, b⟩ := p
    by_cases hk : k = a
    · simp [ainsert, hk, alookup]
    · simp [ainsert, hk, alookup, ih]

theorem mem_uniqueFirst {α : Type} [DecidableEq α] {x : α} {l : List α} :
    x ∈ uniqueFirst l ↔ x ∈ l := by
  induction l with
  | nil => simp [uniqueFirst]
  | cons a l ih =>
    simp only [uniqueFirst, List.mem_cons, List.mem_filter, ih, decide_eq_true_eq]
    constructor
    · rintro (rfl | ⟨h, _⟩)
      · exact Or.inl rfl
      · exact Or.inr h
    · rintro (rfl | h)
      · exact Or.inl rfl
      · by_cases hx : x = a
        · exact Or.inl hx
        · exact Or.inr ⟨h, hx⟩

theorem maxByKeyLast_eq_none_iff {α : Type} {f : α → Nat} {l : List α} :
    maxByKeyLast f l = none ↔ l = [] := by
  cases l with
  | nil => simp [maxByKeyLast]
  | cons x xs =>
    simp only [maxByKeyLast]
    cases h : maxByKeyLast f xs with
    | none => simp
    | some y =>
      by_cases hy : f y < f x <;> simp [hy]

/-- A result of `maxByKeyLast` is an element of the list, every element
before it has a key at most as large, and every element after it has a
strictly smaller key: it is the LAST maximal element. -/
theorem maxByKeyLast_spec {α : Type} {f : α → Nat} {l : List α} {x : α}
    (h : maxByKeyLast f l = some x) :
    ∃ pre post, l = pre ++ x :: post ∧ (∀ y ∈ pre, f y ≤ f x) ∧ (∀ y ∈ post, f y < f x) := by
  induction l generalizing x with
  | nil => simp [maxByKeyLast] at h
  | cons a l ih =>
    simp only [maxByKeyLast] at h
    cases hl : maxByKeyLast f l with
    | none =>
      rw [hl] at h
      have : l = [] := maxByKeyLast_eq_none_iff.mp hl
      subst this
      simp at h
      subst h
      exact ⟨[], [], by simp⟩
    | some y =>
      rw [hl] at h
      have h2 : (if f y < f a then some a else some y) = some x := h
      obtain ⟨pre, post, hsplit, hpre, hpost⟩ := ih hl
      by_cases hy : f y < f a
      · rw [if_pos hy] at h2
        have hxa : a = x := by injection h2
        subst hxa
        refine ⟨[], l, by simp, by simp, ?_⟩
        intro z hz
        rw [hsplit] at hz
        rcases List.mem_append.mp hz with hz | hz
        · exact lt_of_le_of_lt (hpre z hz) hy
        · rcases List.mem_cons.mp hz with rfl | hz
          · exact hy
          · exact lt_trans (hpost z hz) hy
      · rw [if_neg hy] at h2
        have hxy : y = x := by injection h2
        subst hxy
        refine ⟨a :: pre, post, by rw [hsplit]; simp, ?_, hpost⟩
        intro z hz
        rcases List.mem_cons.mp hz with rfl | hz
        · exact Nat.le_of_not_lt hy
        · exact hpre z hz

end AListLemmas

/-! ### Lemmas about load enrichment -/

section LoadEnrichment

/-- First-of-two-options combinator (`Option::or`), used to phrase
"existing entries win" lookup lemmas. -/
def orO {α : Type} : Option α → Option α → Option α
  | some a, _ => some a
  | none, b => b

theorem orO_none_right {α : Type} (x : Option α) : orO x none = x := by
  cases x <;> rfl

theorem orO_assoc {α : Type} (x y z : Option α) : orO (orO x y) z = orO x (orO y z) := by
  cases x <;> rfl

theorem orO_if_same {α : Type} (c1 c2 : Prop) [Decidable c1] [Decidable c2] (a : α) :
    orO (if c1 then some a else none) (if c2 then some a else none) =
      if c1 ∨ c2 then some a else none := by
  by_cases h1 : c1 <;> by_cases h2 : c2 <;> simp [h1, h2, orO]

theorem alookup_insertIfAbsent {K V : Type} [DecidableEq K]
    (m : List (K × V)) (k d : K) (v : V) :
    alookup (insertIfAbsent m k v) d = orO (alookup m d) (if d = k then some v else none) := by
  unfold insertIfAbsent
  cases hk : alookup m k with
  | some w =>
    cases hd : alookup m d with
    | some u => rfl
    | none =>
      by_cases hdk : d = k
      · subst hdk
        rw [hd] at hk
        cases hk
      · simp [orO, hdk]
  | none =>
    rw [alookup_append]
    cases hd : alookup m d with
    | some u => rfl
    | none => simp [orO, alookup]

theorem alookup_loadInsertStep (pkg : PackageLabel) (m : List (PackageLabel × PackageLabel))
    (a d : PackageLabel) :
    alookup (loadInsertStep pkg m a) d =
      orO (alookup m d) (if d = a ∧ a ≠ pkg then some pkg else none) := by
  unfold loadInsertStep
  by_cases hap : a = pkg
  · subst hap
    simp [orO_none_right]
  · rw [if_neg hap, alookup_insertIfAbsent]
    have : (d = a) ↔ (d = a ∧ a ≠ pkg) := by
      constructor
      · intro h
        exact ⟨h, hap⟩
      · intro h
        exact h.1
    rw [if_congr this rfl rfl]

theorem foldl_loadInsertStep_lookup (pkg : PackageLabel) (deps : List PackageLabel) :
    ∀ (m : List (PackageLabel × PackageLabel)) (d : PackageLabel),
    alookup (deps.foldl (loadInsertStep pkg) m) d =
      orO (alookup m d) (if d ∈ deps ∧ d ≠ pkg then some pkg else none) := by
  induction deps with
  | nil =>
    intro m d
    simp [orO_none_right]
  | cons a deps ih =>
    intro m d
    rw [List.foldl_cons, ih, alookup_loadInsertStep, orO_assoc, orO_if_same]
    have hiff : ((d = a ∧ a ≠ pkg) ∨ (d ∈ deps ∧ d ≠ pkg)) ↔ (d ∈ a :: deps ∧ d ≠ pkg) := by
      simp only [List.mem_cons]
      constructor
      · rintro (⟨rfl, h⟩ | ⟨h1, h2⟩)
        · exact ⟨Or.inl rfl, h⟩
        · exact ⟨Or.inr h1, h2⟩
      · rintro ⟨rfl | h1, h2⟩
        · exact Or.inl ⟨rfl, h2⟩
        · exact Or.inr ⟨h1, h2⟩
    rw [if_congr hiff rfl rfl]

/-- The entry `enrich_load` would newly contribute for package `d`: the
loading package `p`, exactly when the evaluation is a load of `p` whose
load result lists `d` as a dependency package and `d ≠ p`. -/
def loadStepValue (e : Evaluation) (d : PackageLabel) : Option PackageLabel :=
  match e.key, e.load_result with
  | NodeKey.InterpreterResultsKey p, some load_result =>
    if d ∈ load_result.flatten ∧ d ≠ p then some p else none
  | _, _ => none

/-- The effect of one `enrich_load` call on the `first_edge_to_load`
map: existing entries are preserved ("first writer wins"), and a fresh
entry appears exactly as described by `loadStepValue`. -/
theorem enrich_load_map_lookup (m : List (PackageLabel × PackageLabel)) (e : Evaluation)
    (d : PackageLabel) :
    alookup (enrich_load m e).1 d = orO (alookup m d) (loadStepValue e d) := by
  obtain ⟨ekey, edur, edeps, espans, eact, elr⟩ := e
  cases ekey <;> cases elr <;>
    first
    | (dsimp only [enrich_load, loadStepValue]
       rw [orO_none_right]
       done)
    | (rename_i p lr
       have h1 : (enrich_load m
             ⟨NodeKey.InterpreterResultsKey p, edur, edeps, espans, eact, some lr⟩).1 =
           (uniqueFirst lr.flatten).foldl (loadInsertStep p) m := by
         dsimp only [enrich_load]
         split <;> rfl
       rw [h1, foldl_loadInsertStep_lookup]
       dsimp only [loadStepValue]
       have hiff : (d ∈ uniqueFirst lr.flatten ∧ d ≠ p) ↔ (d ∈ lr.flatten ∧ d ≠ p) := by
         rw [mem_uniqueFirst]
       rw [if_congr hiff rfl rfl])
    | (rename_i p
       have h1 : (enrich_load m
             ⟨NodeKey.InterpreterResultsKey p, edur, edeps, espans, eact, none⟩).1 = m := by
         dsimp only [enrich_load]
         split <;> rfl
       rw [h1]
       dsimp only [loadStepValue]
       rw [orO_none_right])

/-- `firstLister` unfolded one evaluation at a time. -/
theorem firstLister_cons (d : PackageLabel) (e : Evaluation) (es : List Evaluation) :
    firstLister d (e :: es) = orO (loadStepValue e d) (firstLister d es) := by
  obtain ⟨ekey, edur, edeps, espans, eact, elr⟩ := e
  cases ekey <;> cases elr <;>
    first
    | rfl
    | (rename_i p lr
       dsimp only [firstLister, loadStepValue]
       by_cases hc : d ∈ lr.flatten ∧ d ≠ p
       · rw [if_pos hc, if_pos hc]
         rfl
       · rw [if_neg hc, if_neg hc]
         rfl)

theorem processLoads_lookup (d : PackageLabel) :
    ∀ (evs : List Evaluation) (m : List (PackageLabel × PackageLabel)),
    alookup (processLoads m evs) d = orO (alookup m d) (firstLister d evs) := by
  intro evs
  induction evs with
  | nil =>
    intro m
    simp [processLoads, firstLister, orO_none_right]
  | cons e evs ih =>
    intro m
    have hstep : processLoads m (e :: evs) = processLoads (enrich_load m e).1 evs := by
      simp [processLoads]
    rw [hstep, ih, enrich_load_map_lookup, orO_assoc, firstLister_cons]

/-- The dep-enrichment of one evaluation: a load of package `p` gets a
dep on the load key of `first_edge_to_load[p]` appended exactly when `p`
is present in the (just-updated) map. -/
theorem enrich_load_dep_keys (m : List (PackageLabel × PackageLabel)) (e : Evaluation)
    (p : PackageLabel) (h : e.key = NodeKey.InterpreterResultsKey p) :
    (enrich_load m e).2.dep_keys =
      e.dep_keys ++
        ((alookup (enrich_load m e).1 p).toList.map NodeKey.InterpreterResultsKey) := by
  obtain ⟨ekey, edur, edeps, espans, eact, elr⟩ := e
  simp only at h
  subst h
  cases elr <;>
    · dsimp only [enrich_load]
      split <;> rename_i heq <;> simp [heq]

/-- The map also never maps a package to itself (pairwise form). -/
def SelfFree (m : List (PackageLabel × PackageLabel)) : Prop :=
  ∀ q ∈ m, q.1 ≠ q.2

theorem SelfFree_insertIfAbsent {m : List (PackageLabel × PackageLabel)} {k v : PackageLabel}
    (h : SelfFree m) (hkv : k ≠ v) : SelfFree (insertIfAbsent m k v) := by
  unfold insertIfAbsent
  cases alookup m k with
  | some _ => exact h
  | none =>
    intro q hq
    rcases List.mem_append.mp hq with hq | hq
    · exact h q hq
    · rcases List.mem_singleton.mp hq with rfl
      exact hkv

theorem SelfFree_loadInsertStep {pkg : PackageLabel} {m : List (PackageLabel × PackageLabel)}
    {a : PackageLabel} (h : SelfFree m) : SelfFree (loadInsertStep pkg m a) := by
  unfold loadInsertStep
  by_cases hap : a = pkg
  · rw [if_pos hap]
    exact h
  · rw [if_neg hap]
    exact SelfFree_insertIfAbsent h hap

theorem SelfFree_foldl {pkg : PackageLabel} (deps : List PackageLabel) :
    ∀ {m : List (PackageLabel × PackageLabel)}, SelfFree m →
    SelfFree (deps.foldl (loadInsertStep pkg) m) := by
  induction deps with
  | nil =>
    intro m h
    exact h
  | cons a deps ih =>
    intro m h
    rw [List.foldl_cons]
    exact ih (SelfFree_loadInsertStep h)

theorem SelfFree_enrich_load {m : List (PackageLabel × PackageLabel)} {e : Evaluation}
    (h : SelfFree m) : SelfFree (enrich_load m e).1 := by
  obtain ⟨ekey, edur, edeps, espans, eact, elr⟩ := e
  cases ekey <;> cases elr <;>
    first
    | exact h
    | (rename_i p lr
       have h1 : (enrich_load m
             ⟨NodeKey.InterpreterResultsKey p, edur, edeps, espans, eact, some lr⟩).1 =
           (uniqueFirst lr.flatten).foldl (loadInsertStep p) m := by
         dsimp only [enrich_load]
         split <;> rfl
       rw [h1]
       exact SelfFree_foldl _ h)
    | (rename_i p
       have h1 : (enrich_load m
             ⟨NodeKey.InterpreterResultsKey p, edur, edeps, espans, eact, none⟩).1 = m := by
         dsimp only [enrich_load]
         split <;> rfl
       rw [h1]
       exact h)

theorem SelfFree_processLoads (evs : List Evaluation) :
    ∀ {m : List (PackageLabel × PackageLabel)}, SelfFree m → SelfFree (processLoads m evs) := by
  induction evs with
  | nil =>
    intro m h
    exact h
  | cons e evs ih =>
    intro m h
    have hstep : processLoads m (e :: evs) = processLoads (enrich_load m e).1 evs := by
      simp [processLoads]
    rw [hstep]
    exact ih (SelfFree_enrich_load h)

end LoadEnrichment

/-! ### Lemmas about `extract_critical_path` -/

section ExtractLemmas

variable {K V : Type} [DecidableEq K]

/-- The result is an error (as opposed to a success or fuel
exhaustion). -/
def isErrO {α : Type} : Option (Except String α) → Prop
  | some (Except.error _) => True
  | _ => False

theorem isErrO_some_ok {α : Type} (a : α) : isErrO (some (Except.ok a)) = False := rfl

theorem isErrO_some_error {α : Type} (m : String) :
    isErrO (some (Except.error m) : Option (Except String α)) = True := rfl

theorem isErrO_none {α : Type} : isErrO (none : Option (Except String α)) = False := rfl

/-- The visited chain `c` trips the cycle check over the already-visited
set `visited`: it has an internal repeat or meets `visited`. -/
def Offends (c visited : List K) : Prop :=
  ¬ c.Nodup ∨ ∃ k, k ∈ c ∧ k ∈ visited

theorem Offends_cons {c visited : List K} {v : K} (hv : v ∉ visited) :
    Offends (v :: c) visited ↔ Offends c (v :: visited) := by
  unfold Offends
  constructor
  · rintro (hnd | ⟨k, hk, hkvis⟩)
    · rw [List.nodup_cons, not_and_or] at hnd
      rcases hnd with hvc | hnd
      · rw [not_not] at hvc
        exact Or.inr ⟨v, hvc, List.mem_cons_self _ _⟩
      · exact Or.inl hnd
    · rcases List.mem_cons.mp hk with rfl | hk
      · exact absurd hkvis hv
      · exact Or.inr ⟨k, hk, List.mem_cons_of_mem _ hkvis⟩
  · rintro (hnd | ⟨k, hk, hkvis⟩)
    · refine Or.inl ?_
      rw [List.nodup_cons, not_and_or]
      exact Or.inr hnd
    · rcases List.mem_cons.mp hkvis with rfl | hkvis
      · refine Or.inl ?_
        rw [List.nodup_cons, not_and_or]
        exact Or.inl (not_not.mpr hk)
      · exact Or.inr ⟨k, List.mem_cons_of_mem _ hk, hkvis⟩

theorem Offends_nil (visited : List K) : ¬ Offends ([] : List K) visited := by
  rintro (hnd | ⟨k, hk, _⟩)
  · exact hnd List.nodup_nil
  · exact absurd hk (List.not_mem_nil k)

theorem Offends_singleton {v : K} {visited : List K} (hv : v ∉ visited) :
    ¬ Offends [v] visited := by
  rintro (hnd | ⟨k, hk, hkvis⟩)
  · exact hnd (List.nodup_singleton v)
  · rcases List.mem_singleton.mp hk with rfl
    exact hv hkvis

theorem chainList_none (preds : List (K × CriticalPathNode K V)) (fuel : Nat) :
    chainList preds fuel none = [] := by
  cases fuel <;> rfl

theorem chainEntries_none (preds : List (K × CriticalPathNode K V)) (fuel : Nat) :
    chainEntries preds fuel none = [] := by
  cases fuel <;> rfl

/-- The walk reports an error exactly when the visited chain has a
repeat or meets the already-visited set. -/
theorem walkCP_error_iff (preds : List (K × CriticalPathNode K V)) :
    ∀ (fuel : Nat) (t : Option K) (visited : List K) (path : List (K × V × Duration)),
    isErrO (walkCP preds fuel t visited path) ↔ Offends (chainList preds fuel t) visited := by
  intro fuel
  induction fuel with
  | zero =>
    intro t visited path
    cases t with
    | none =>
      rw [chainList_none]
      simp only [walkCP, isErrO_some_ok]
      exact iff_of_false (fun h => h) (Offends_nil visited)
    | some v =>
      simp only [walkCP, chainList, isErrO_none]
      exact iff_of_false (fun h => h) (Offends_nil visited)
  | succ fuel ih =>
    intro t visited path
    cases t with
    | none =>
      rw [chainList_none]
      simp only [walkCP, isErrO_some_ok]
      exact iff_of_false (fun h => h) (Offends_nil visited)
    | some v =>
      by_cases hv : v ∈ visited
      · simp only [walkCP, if_pos hv, isErrO_some_error, chainList]
        exact iff_of_true trivial
          (Or.inr ⟨v, List.mem_cons_self _ _, hv⟩)
      · simp only [walkCP, if_neg hv]
        cases hl : alookup preds v with
        | none =>
          have hstep : stepCP preds v = none := by
            simp [stepCP, hl]
          simp only [chainList, hstep, chainList_none, isErrO_some_ok]
          exact iff_of_false (fun h => h) (Offends_singleton hv)
        | some node =>
          have hstep : stepCP preds v = node.prev := by
            simp [stepCP, hl]
          rw [ih node.prev (v :: visited) (path ++ [(v, node.value, node.duration)])]
          simp only [chainList, hstep]
          exact (Offends_cons hv).symm

theorem filter_imp_length_le (p q : K → Bool) (h : ∀ k, p k = true → q k = true) :
    ∀ ks : List K, (ks.filter p).length ≤ (ks.filter q).length := by
  intro ks
  induction ks with
  | nil => exact Nat.le_refl _
  | cons a ks ih =>
    simp only [List.filter_cons]
    cases hp : p a with
    | true =>
      rw [h a hp]
      simpa using ih
    | false =>
      cases hq : q a with
      | true =>
        simp only [List.length_cons]
        exact Nat.le_succ_of_le ih
      | false => exact ih

theorem filter_not_mem_cons_length_lt (ks visited : List K) (v : K)
    (hvk : v ∈ ks) (hv : v ∉ visited) :
    ((ks.filter (fun k => decide (k ∉ v :: visited))).length <
      (ks.filter (fun k => decide (k ∉ visited))).length) := by
  induction ks with
  | nil => exact absurd hvk (List.not_mem_nil v)
  | cons a ks ih =>
    simp only [List.filter_cons]
    by_cases hav : a = v
    · subst hav
      have h1 : (decide (a ∉ a :: visited)) = false := by
        simp [List.mem_cons]
      have h2 : (decide (a ∉ visited)) = true := by
        simpa using hv
      rw [h1, h2]
      simp only [List.length_cons]
      have hle : ((ks.filter (fun k => decide (k ∉ a :: visited))).length ≤
          (ks.filter (fun k => decide (k ∉ visited))).length) := by
        refine filter_imp_length_le _ _ ?_ ks
        intro k hk
        simp only [decide_eq_true_eq] at hk ⊢
        intro hmem
        exact hk (List.mem_cons_of_mem _ hmem)
      exact Nat.lt_succ_of_le hle
    · have hvks : v ∈ ks := by
        rcases List.mem_cons.mp hvk with rfl | hvks
        · exact absurd rfl hav
        · exact hvks
      by_cases hamem : a ∈ visited
      · have h1 : (decide (a ∉ v :: visited)) = false := by
          simp [List.mem_cons, hamem]
        have h2 : (decide (a ∉ visited)) = false := by
          simp [hamem]
        rw [h1, h2]
        exact ih hvks
      · have h1 : (decide (a ∉ v :: visited)) = true := by
          simp [List.mem_cons, hamem, hav]
        have h2 : (decide (a ∉ visited)) = true := by
          simp [hamem]
        rw [h1, h2]
        simp only [List.length_cons]
        exact Nat.succ_lt_succ (ih hvks)

/-- Fuel sufficiency: with one more unit of fuel than there are
not-yet-visited keys, the walk never runs out of fuel (this is the
termination argument for the Rust loop). -/
theorem walkCP_ne_none (preds : List (K × CriticalPathNode K V)) :
    ∀ (fuel : Nat) (t : Option K) (visited : List K) (path : List (K × V × Duration)),
    ((preds.map Prod.fst).filter (fun k => decide (k ∉ visited))).length + 1 ≤ fuel →
    walkCP preds fuel t visited path ≠ none := by
  intro fuel
  induction fuel with
  | zero =>
    intro t visited path hfuel
    exact absurd hfuel (by omega)
  | succ fuel ih =>
    intro t visited path hfuel
    cases t with
    | none => simp [walkCP]
    | some v =>
      by_cases hv : v ∈ visited
      · simp [walkCP, if_pos hv]
      · simp only [walkCP, if_neg hv]
        cases hl : alookup preds v with
        | none => simp
        | some node =>
          refine ih node.prev (v :: visited) (path ++ [(v, node.value, node.duration)]) ?_
          have hvk : v ∈ preds.map Prod.fst := alookup_mem_keys hl
          have hdec := filter_not_mem_cons_length_lt (preds.map Prod.fst) visited v hvk hv
          omega

/-- A successful walk returns the accumulated path followed by the chain
entries from the current position. -/
theorem walkCP_ok_eq (preds : List (K × CriticalPathNode K V)) :
    ∀ (fuel : Nat) (t : Option K) (visited : List K)
      (path out : List (K × V × Duration)),
    walkCP preds fuel t visited path = some (Except.ok out) →
    out = path ++ chainEntries preds fuel t := by
  intro fuel
  induction fuel with
  | zero =>
    intro t visited path out h
    cases t with
    | none =>
      simp only [walkCP, Option.some.injEq, Except.ok.injEq] at h
      rw [chainEntries_none, List.append_nil]
      exact h.symm
    | some v => simp [walkCP] at h
  | succ fuel ih =>
    intro t visited path out h
    cases t with
    | none =>
      simp only [walkCP, Option.some.injEq, Except.ok.injEq] at h
      rw [chainEntries_none, List.append_nil]
      exact h.symm
    | some v =>
      by_cases hv : v ∈ visited
      · simp [walkCP, if_pos hv] at h
      · simp only [walkCP, if_neg hv] at h
        cases hl : alookup preds v with
        | none =>
          rw [hl] at h
          simp only [Option.some.injEq, Except.ok.injEq] at h
          simp only [chainEntries, hl]
          rw [List.append_nil]
          exact h.symm
        | some node =>
          rw [hl] at h
          have := ih node.prev (v :: visited)
            (path ++ [(v, node.value, node.duration)]) out h
          rw [this]
          simp only [chainEntries, hl]
          rw [List.append_assoc]
          rfl

/-- Every entry the walk pushes is present in the map with exactly the
pushed value and cumulative duration. -/
theorem chainEntries_sound (preds : List (K × CriticalPathNode K V)) :
    ∀ (fuel : Nat) (t : Option K), ∀ x ∈ chainEntries preds fuel t,
    ∃ n, alookup preds x.1 = some n ∧ n.duration = x.2.2 ∧ n.value = x.2.1 := by
  intro fuel
  induction fuel with
  | zero =>
    intro t x hx
    simp [chainEntries] at hx
  | succ fuel ih =>
    intro t x hx
    cases t with
    | none => simp [chainEntries] at hx
    | some v =>
      cases hl : alookup preds v with
      | none =>
        rw [chainEntries, hl] at hx
        simp at hx
      | some node =>
        rw [chainEntries, hl] at hx
        rcases List.mem_cons.mp hx with rfl | hx
        · exact ⟨node, hl, rfl, rfl⟩
        · exact ih node.prev x hx

/-- The keys of the pushed entries form a prefix of the visited chain. -/
theorem chainEntries_keys_prefix (preds : List (K × CriticalPathNode K V)) :
    ∀ (fuel : Nat) (t : Option K), ∃ rest,
    chainList preds fuel t = (chainEntries preds fuel t).map (fun x => x.1) ++ rest := by
  intro fuel
  induction fuel with
  | zero =>
    intro t
    exact ⟨[], by cases t <;> rfl⟩
  | succ fuel ih =>
    intro t
    cases t with
    | none => exact ⟨[], rfl⟩
    | some v =>
      cases hl : alookup preds v with
      | none =>
        refine ⟨v :: chainList preds fuel (stepCP preds v), ?_⟩
        rw [chainList, chainEntries, hl]
        rfl
      | some node =>
        obtain ⟨rest, hrest⟩ := ih node.prev
        refine ⟨rest, ?_⟩
        rw [chainList, chainEntries, hl]
        have hstep : stepCP preds v = node.prev := by
          simp [stepCP, hl]
        rw [hstep, hrest]
        rfl

/-- The first pushed entry (when there is one) is the walk's starting
key. -/
theorem chainEntries_head_key (preds : List (K × CriticalPathNode K V)) :
    ∀ (fuel : Nat) (t : Option K) (x : K × V × Duration),
    (chainEntries preds fuel t).head? = some x → t = some x.1 := by
  intro fuel t x h
  cases fuel with
  | zero => simp [chainEntries] at h
  | succ fuel =>
    cases t with
    | none => simp [chainEntries] at h
    | some v =>
      cases hl : alookup preds v with
      | none =>
        rw [chainEntries, hl] at h
        simp at h
      | some node =>
        rw [chainEntries, hl] at h
        simp only [List.head?_cons, Option.some.injEq] at h
        rw [← h]

/-- Adjacent pushed entries are linked by `prev` pointers: each entry's
stored `prev` is the key of the next entry in walk order. -/
theorem chainEntries_chain' (preds : List (K × CriticalPathNode K V)) :
    ∀ (fuel : Nat) (t : Option K),
    List.Chain' (fun a b => ∃ n, alookup preds a.1 = some n ∧ n.prev = some b.1)
      (chainEntries preds fuel t) := by
  intro fuel
  induction fuel with
  | zero =>
    intro t
    cases t <;> exact List.chain'_nil
  | succ fuel ih =>
    intro t
    cases t with
    | none => exact List.chain'_nil
    | some v =>
      cases hl : alookup preds v with
      | none =>
        rw [chainEntries, hl]
        exact List.chain'_nil
      | some node =>
        rw [chainEntries, hl]
        rw [List.chain'_cons']
        refine ⟨?_, ih node.prev⟩
        intro y hy
        have := chainEntries_head_key preds fuel node.prev y hy
        exact ⟨node, hl, this⟩

/-! #### The cumulative-to-contribution conversion -/

theorem diffGo_length (x : K × V × Duration) (xs : List (K × V × Duration)) :
    (diffGo x xs).length = xs.length := by
  induction xs generalizing x with
  | nil => rfl
  | cons y ys ih =>
    simp only [diffGo, List.length_cons]
    rw [ih]

theorem diffAdjacent_length (l : List (K × V × Duration)) :
    (diffAdjacent l).length = l.length := by
  cases l with
  | nil => rfl
  | cons x xs =>
    simp only [diffAdjacent, List.length_cons]
    rw [diffGo_length]

theorem diffGo_get? (xs : List (K × V × Duration)) :
    ∀ (prev : K × V × Duration) (i : Nat),
    (diffGo prev xs).get? i =
      match xs.get? i, (prev :: xs).get? i with
      | some cur, some pre => some (cur.1, cur.2.1, cur.2.2 - pre.2.2)
      | _, _ => none := by
  induction xs with
  | nil =>
    intro prev i
    cases i <;> rfl
  | cons y ys ih =>
    intro prev i
    cases i with
    | zero => rfl
    | succ i =>
      simp only [diffGo, List.get?_cons_succ]
      rw [ih y i]

theorem diffAdjacent_get?_zero (l : List (K × V × Duration)) :
    (diffAdjacent l).get? 0 = l.get? 0 := by
  cases l <;> rfl

theorem diffAdjacent_get?_succ (l : List (K × V × Duration)) (i : Nat) :
    (diffAdjacent l).get? (i + 1) =
      match l.get? (i + 1), l.get? i with
      | some cur, some pre => some (cur.1, cur.2.1, cur.2.2 - pre.2.2)
      | _, _ => none := by
  cases l with
  | nil => rfl
  | cons x xs =>
    simp only [diffAdjacent, List.get?_cons_succ]
    rw [diffGo_get? xs x i]

theorem diffGo_map_fst (xs : List (K × V × Duration)) :
    ∀ (prev : K × V × Duration),
    (diffGo prev xs).map (fun x => x.1) = xs.map (fun x => x.1) := by
  induction xs with
  | nil => intro prev; rfl
  | cons y ys ih =>
    intro prev
    simp only [diffGo, List.map_cons]
    rw [ih y]

theorem diffAdjacent_map_fst (l : List (K × V × Duration)) :
    (diffAdjacent l).map (fun x => x.1) = l.map (fun x => x.1) := by
  cases l with
  | nil => rfl
  | cons x xs =>
    simp only [diffAdjacent, List.map_cons]
    rw [diffGo_map_fst]

theorem diffAdjacent_get?_fst (l : List (K × V × Duration)) (i : Nat) :
    ((diffAdjacent l).get? i).map (fun x => x.1) = (l.get? i).map (fun x => x.1) := by
  cases i with
  | zero => rw [diffAdjacent_get?_zero]
  | succ i =>
    rw [diffAdjacent_get?_succ]
    cases hc : l.get? (i + 1) with
    | none => rfl
    | some cur =>
      cases hp : l.get? i with
      | none =>
        have h1 : l.length ≤ i := List.get?_eq_none.mp hp
        have h2 : i + 1 < l.length := by
          rcases List.get?_eq_some.mp hc with ⟨h2, _⟩
          exact h2
        omega
      | some pre => rfl

theorem maxByKeyLast_mem {α : Type} {f : α → Nat} {l : List α} {x : α}
    (h : maxByKeyLast f l = some x) : x ∈ l := by
  obtain ⟨pre, post, hsplit, _, _⟩ := maxByKeyLast_spec h
  rw [hsplit]
  exact List.mem_append.mpr (Or.inr (List.mem_cons_self _ _))

theorem Offends_nil_visited (c : List K) : Offends c [] ↔ ¬ c.Nodup := by
  unfold Offends
  constructor
  · rintro (h | ⟨k, _, hkv⟩)
    · exact h
    · exact absurd hkv (List.not_mem_nil k)
  · intro h
    exact Or.inl h

/-- For an acyclic map the visited chain from the chosen start is
duplicate-free. -/
theorem chainOf_nodup_of_acyclic {preds : List (K × CriticalPathNode K V)}
    (hA : Acyclic preds) : (chainOf preds).Nodup := by
  unfold chainOf startKey
  cases hmx : maxByKeyLast (fun p => p.2.duration) preds with
  | none =>
    rw [Option.map_none', chainList_none]
    exact List.nodup_nil
  | some q =>
    rw [Option.map_some']
    have hq : q ∈ preds := maxByKeyLast_mem hmx
    exact hA q.1 (List.mem_map.mpr ⟨q, hq, rfl⟩)

/-- The initial call of the walk has enough fuel. -/
theorem walkCP_top_ne_none (preds : List (K × CriticalPathNode K V)) :
    walkCP preds (preds.length + 2) (startKey preds) [] [] ≠ none := by
  refine walkCP_ne_none preds (preds.length + 2) (startKey preds) [] [] ?_
  have h1 : ((preds.map Prod.fst).filter
      (fun k => decide (k ∉ ([] : List K)))).length ≤ (preds.map Prod.fst).length :=
    List.length_filter_le _ _
  rw [List.length_map] at h1
  omega

/-- Structure of a successful extraction: the output is the adjacent
difference of a "raw" cumulative list whose entries all come from the
map and whose consecutive entries are linked by `prev` pointers (each
entry's stored predecessor is the preceding list entry). -/
theorem extract_ok_facts {preds : List (K × CriticalPathNode K V)}
    {out : List (K × V × Duration)} (h : extract_critical_path preds = Except.ok out) :
    ∃ raw, out = diffAdjacent raw ∧
      (∀ x ∈ raw, ∃ n, alookup preds x.1 = some n ∧ n.duration = x.2.2 ∧ n.value = x.2.1) ∧
      List.Chain' (fun a b => ∃ n, alookup preds b.1 = some n ∧ n.prev = some a.1) raw := by
  unfold extract_critical_path at h
  cases hw : walkCP preds (preds.length + 2) (startKey preds) [] [] with
  | none => exact absurd hw (walkCP_top_ne_none preds)
  | some r =>
    rw [hw] at h
    cases r with
    | error m => cases h
    | ok path =>
      simp only [Except.ok.injEq] at h
      have hpath : path = chainEntries preds (preds.length + 2) (startKey preds) := by
        have := walkCP_ok_eq preds (preds.length + 2) (startKey preds) [] [] path hw
        rw [List.nil_append] at this
        exact this
      refine ⟨path.reverse, h.symm, ?_, ?_⟩
      · intro x hx
        rw [List.mem_reverse] at hx
        rw [hpath] at hx
        exact chainEntries_sound preds _ _ x hx
      · rw [List.chain'_reverse]
        have hchain := chainEntries_chain' preds (preds.length + 2) (startKey preds)
        rw [← hpath] at hchain
        exact hchain

end ExtractLemmas

/-! ### Lemmas about the default backend -/

/-- The node stored by `DefaultBackend::process_node` under the
processed key, as a function of the chosen longest ancestor. -/
theorem process_node_lookup (s : DefaultBackend) (key : NodeKey) (value : Option Action)
    (duration : NodeDuration) (dep_keys : List NodeKey) (span_ids : List Span) :
    alookup (DefaultBackend.process_node s key value duration dep_keys span_ids).predecessors
        key =
      some
        (match maxByKeyLast (fun d => d.2) (s.foundDeps dep_keys) with
        | some (k, ancestor_duration) =>
          ⟨ancestor_duration + duration.critical_path_duration,
            ⟨value, duration, span_ids⟩, some k⟩
        | none => ⟨duration.critical_path_duration, ⟨value, duration, span_ids⟩, none⟩) :=
  alookup_ainsert_self

/-! ### The claims about the source -/

/-- Input on which the first-seen tie-break of claim C1 fails: two
deduplicated deps with equal cumulative durations. -/
def c1State : DefaultBackend :=
  ⟨[(NodeKey.AnalysisKey 1, ⟨5, ⟨none, ⟨0, 0⟩, []⟩, none⟩),
    (NodeKey.AnalysisKey 2, ⟨5, ⟨none, ⟨0, 0⟩, []⟩, none⟩)], 2, 0⟩

/-- C1, counterexample: with two dependencies tied at cumulative
duration 5, `process_node` stores `AnalysisKey 2` (the LAST maximal dep,
per Rust's `max_by_key`) as the predecessor, while the claim's
first-seen tie-break picks `AnalysisKey 1`. -/
theorem claim1_counterexample :
    (alookup (DefaultBackend.process_node c1State (NodeKey.BuildKey 0) none ⟨3, 3⟩
        [NodeKey.AnalysisKey 1, NodeKey.AnalysisKey 2] []).predecessors
      (NodeKey.BuildKey 0)).map (fun n => n.prev) = some (some (NodeKey.AnalysisKey 2)) ∧
    (maxByKeyFirstSeen (fun d => d.2)
        (c1State.foundDeps [NodeKey.AnalysisKey 1, NodeKey.AnalysisKey 2])).map
        (fun d => d.1) = some (NodeKey.AnalysisKey 1) ∧
    NodeKey.AnalysisKey 2 ≠ NodeKey.AnalysisKey 1 := by
  decide

/-- C1 (amended): among the deduplicated dependencies that have an
existing predecessor entry, the dependency with the maximum cumulative
duration is chosen as the predecessor, with ties broken by LAST-seen
order of the dependencies (Rust's `max_by_key` keeps the last maximal
element); the inserted node's cumulative duration equals the chosen
dependency's cumulative duration plus this node's critical-path
duration, or just this node's critical-path duration when no dependency
is found. -/
theorem claim1_max_dep_selection (s : DefaultBackend) (key : NodeKey)
    (value : Option Action) (duration : NodeDuration) (dep_keys : List NodeKey)
    (span_ids : List Span) :
    (s.foundDeps dep_keys = [] →
      alookup (DefaultBackend.process_node s key value duration dep_keys
          span_ids).predecessors key =
        some ⟨duration.critical_path_duration, ⟨value, duration, span_ids⟩, none⟩) ∧
    (∀ k d, maxByKeyLast (fun x => x.2) (s.foundDeps dep_keys) = some (k, d) →
      alookup (DefaultBackend.process_node s key value duration dep_keys
          span_ids).predecessors key =
        some ⟨d + duration.critical_path_duration, ⟨value, duration, span_ids⟩, some k⟩ ∧
      ∃ pre post, s.foundDeps dep_keys = pre ++ (k, d) :: post ∧
        (∀ x ∈ pre, x.2 ≤ d) ∧ (∀ x ∈ post, x.2 < d)) ∧
    (s.foundDeps dep_keys ≠ [] →
      ∃ k d, maxByKeyLast (fun x => x.2) (s.foundDeps dep_keys) = some (k, d)) := by
  refine ⟨?_, ?_, ?_⟩
  · intro hempty
    have hmx : maxByKeyLast (fun d => d.2) (s.foundDeps dep_keys) = none :=
      maxByKeyLast_eq_none_iff.mpr hempty
    rw [process_node_lookup, hmx]
  · intro k d hmx
    constructor
    · rw [process_node_lookup, hmx]
    · have hspec := maxByKeyLast_spec hmx
      obtain ⟨pre, post, hsplit, hpre, hpost⟩ := hspec
      exact ⟨pre, post, hsplit, hpre, hpost⟩
  · intro hne
    cases hmx : maxByKeyLast (fun x => x.2) (s.foundDeps dep_keys) with
    | none => exact absurd (maxByKeyLast_eq_none_iff.mp hmx) hne
    | some kd =>
      obtain ⟨k, d⟩ := kd
      exact ⟨k, d, rfl⟩

/-- C1, witness: the amended theorem applied to the tie input. -/
theorem claim1_witness :
    alookup (DefaultBackend.process_node c1State (NodeKey.BuildKey 0) none ⟨3, 3⟩
        [NodeKey.AnalysisKey 1, NodeKey.AnalysisKey 2] []).predecessors
      (NodeKey.BuildKey 0) =
      some ⟨5 + 3, ⟨none, ⟨3, 3⟩, []⟩, some (NodeKey.AnalysisKey 2)⟩ ∧
    ∃ pre post,
      c1State.foundDeps [NodeKey.AnalysisKey 1, NodeKey.AnalysisKey 2] =
        pre ++ (NodeKey.AnalysisKey 2, 5) :: post ∧
      (∀ x ∈ pre, x.2 ≤ 5) ∧ (∀ x ∈ post, x.2 < 5) :=
  (claim1_max_dep_selection c1State (NodeKey.BuildKey 0) none ⟨3, 3⟩
    [NodeKey.AnalysisKey 1, NodeKey.AnalysisKey 2] []).2.1
    (NodeKey.AnalysisKey 2) 5 (by decide)

/-- C9: every `process_node` call on the default backend increments
`num_nodes` (so it counts calls, not distinct keys), and the inserted
node overwrites any previously stored entry for the key — its stored
value is the data of the current call.  Processing the same key twice
from a fresh backend leaves `num_nodes = 2` but only one map entry,
holding the second call's data. -/
theorem claim9_duplicate_overwrite (s : DefaultBackend) (key : NodeKey)
    (value : Option Action) (duration : NodeDuration) (dep_keys : List NodeKey)
    (span_ids : List Span) :
    ((DefaultBackend.process_node s key value duration dep_keys span_ids).num_nodes =
      s.num_nodes + 1) ∧
    (∃ n, alookup (DefaultBackend.process_node s key value duration dep_keys
        span_ids).predecessors key = some n ∧ n.value = ⟨value, duration, span_ids⟩) ∧
    ((DefaultBackend.process_node (DefaultBackend.process_node DefaultBackend.new
        (NodeKey.BuildKey 1) none ⟨1, 1⟩ [] []) (NodeKey.BuildKey 1) none ⟨2, 2⟩ []
        []).num_nodes = 2 ∧
      (DefaultBackend.process_node (DefaultBackend.process_node DefaultBackend.new
        (NodeKey.BuildKey 1) none ⟨1, 1⟩ [] []) (NodeKey.BuildKey 1) none ⟨2, 2⟩ []
        []).predecessors.length = 1 ∧
      alookup (DefaultBackend.process_node (DefaultBackend.process_node DefaultBackend.new
        (NodeKey.BuildKey 1) none ⟨1, 1⟩ [] []) (NodeKey.BuildKey 1) none ⟨2, 2⟩ []
        []).predecessors (NodeKey.BuildKey 1) =
        some ⟨2, ⟨none, ⟨2, 2⟩, []⟩, none⟩) := by
  refine ⟨rfl, ?_, by decide⟩
  rw [process_node_lookup]
  refine ⟨_, rfl, ?_⟩
  cases maxByKeyLast (fun d => d.2) (s.foundDeps dep_keys) with
  | none => rfl
  | some kd =>
    obtain ⟨k, d⟩ := kd
    rfl

/-- Input on which the reconstruction clause of claim C2 fails: a map
(producible by the default backend after an overwrite) in which a node's
stored cumulative duration is smaller than its predecessor's. -/
def c2Preds : List (Nat × CriticalPathNode Nat Nat) :=
  [(1, ⟨50, 0, none⟩), (2, ⟨3, 0, some 1⟩), (3, ⟨51, 0, some 2⟩)]

/-- C2, counterexample: `extract_critical_path` succeeds on `c2Preds`
with path `1, 2, 3` and contributions `50, 0, 48`.  The second entry's
cumulative duration is `3` while its predecessor's is `50`, so the
saturating difference is `0` and the claimed reconstruction
`cumulative(p₁) = cumulative(p₀) + contribution(p₁)` fails: `3 ≠ 50 + 0`. -/
theorem claim2_counterexample :
    extract_critical_path c2Preds = Except.ok [(1, 0, 50), (2, 0, 0), (3, 0, 48)] ∧
    alookup c2Preds 1 = some ⟨50, 0, none⟩ ∧
    alookup c2Preds 2 = some ⟨3, 0, some 1⟩ ∧
    ¬ ((3 : Nat) = 50 + 0) := by
  decide

/-- C2 (amended): for every path returned by `extract_critical_path`,
the first (root) entry's contribution equals its own cumulative
duration, and the per-node contribution of each entry after the first
equals the saturating difference of its cumulative duration and its
predecessor's cumulative duration (the preceding path entry, which is
the entry the node's `prev` pointer names); consequently
`cumulative(pᵢ)` reconstructs as `cumulative(pᵢ₋₁) + contribution(pᵢ)`
whenever the predecessor's cumulative duration does not exceed the
node's (saturation loses information otherwise). -/
theorem claim2_contribution_law {K V : Type} [DecidableEq K]
    (preds : List (K × CriticalPathNode K V)) (out : List (K × V × Duration))
    (h : extract_critical_path preds = Except.ok out) :
    (∀ h0 : 0 < out.length,
      ∃ n, alookup preds (out.get ⟨0, h0⟩).1 = some n ∧ (out.get ⟨0, h0⟩).2.2 = n.duration) ∧
    (∀ i, ∀ hi1 : i + 1 < out.length,
      ∃ np nc,
        alookup preds (out.get ⟨i, Nat.lt_of_succ_lt hi1⟩).1 = some np ∧
        alookup preds (out.get ⟨i + 1, hi1⟩).1 = some nc ∧
        nc.prev = some (out.get ⟨i, Nat.lt_of_succ_lt hi1⟩).1 ∧
        (out.get ⟨i + 1, hi1⟩).2.2 = nc.duration - np.duration ∧
        (np.duration ≤ nc.duration →
          nc.duration = np.duration + (out.get ⟨i + 1, hi1⟩).2.2)) := by
  obtain ⟨raw, hout, hsound, hchain⟩ := extract_ok_facts h
  subst hout
  have hlen : (diffAdjacent raw).length = raw.length := diffAdjacent_length raw
  constructor
  · intro h0
    have h0r : 0 < raw.length := by omega
    have hget : (diffAdjacent raw).get ⟨0, h0⟩ = raw.get ⟨0, h0r⟩ := by
      have t1 := diffAdjacent_get?_zero raw
      rw [List.get?_eq_get h0, List.get?_eq_get h0r] at t1
      exact Option.some.inj t1
    rw [hget]
    obtain ⟨n, hn, hdur, _⟩ := hsound (raw.get ⟨0, h0r⟩) (List.get_mem raw 0 h0r)
    exact ⟨n, hn, hdur.symm⟩
  · intro i hi1
    have hi1r : i + 1 < raw.length := by omega
    have hir : i < raw.length := Nat.lt_of_succ_lt hi1r
    have hcur : raw.get ⟨i + 1, hi1r⟩ ∈ raw := List.get_mem raw (i + 1) hi1r
    have hpre : raw.get ⟨i, hir⟩ ∈ raw := List.get_mem raw i hir
    -- the value of the diffed entry at i+1
    have hsucc := diffAdjacent_get?_succ raw i
    rw [List.get?_eq_get hi1, List.get?_eq_get hi1r, List.get?_eq_get hir] at hsucc
    have hsucc2 : (diffAdjacent raw).get ⟨i + 1, hi1⟩ =
        ((raw.get ⟨i + 1, hi1r⟩).1, (raw.get ⟨i + 1, hi1r⟩).2.1,
          (raw.get ⟨i + 1, hi1r⟩).2.2 - (raw.get ⟨i, hir⟩).2.2) :=
      Option.some.inj hsucc
    -- the key of the diffed entry at i
    have hfst := diffAdjacent_get?_fst raw i
    rw [List.get?_eq_get (by omega : i < (diffAdjacent raw).length),
      List.get?_eq_get hir] at hfst
    have hfst2 : ((diffAdjacent raw).get ⟨i, Nat.lt_of_succ_lt hi1⟩).1 =
        (raw.get ⟨i, hir⟩).1 := by
      simpa using hfst
    -- prev linkage from the chain
    have hlink := List.chain'_iff_get.mp hchain i (by omega)
    obtain ⟨nc, hnc, hncprev⟩ := hlink
    -- map entries for both raw entries
    obtain ⟨np, hnp, hnpdur, _⟩ := hsound (raw.get ⟨i, hir⟩) hpre
    obtain ⟨nc2, hnc2, hnc2dur, _⟩ := hsound (raw.get ⟨i + 1, hi1r⟩) hcur
    have hnceq : nc = nc2 := by
      rw [hnc] at hnc2
      exact Option.some.inj hnc2
    subst hnceq
    refine ⟨np, nc, ?_, ?_, ?_, ?_, ?_⟩
    · rw [hfst2]
      exact hnp
    · rw [hsucc2]
      exact hnc2
    · rw [hfst2]
      exact hncprev
    · rw [hsucc2]
      dsimp only
      rw [hnpdur, hnc2dur]
    · intro hle
      rw [hsucc2]
      dsimp only
      rw [hnpdur, hnc2dur] at hle ⊢
      exact (Nat.add_sub_cancel' hle).symm

/-- The map of the Rust `long_path` test (lib.rs:990-1010), used as a
concrete input for the C2 witness. -/
def c2Wpreds : List (Nat × CriticalPathNode Nat Nat) :=
  [(1, ⟨5, 0, none⟩), (2, ⟨11, 0, some 1⟩), (3, ⟨18, 0, some 2⟩), (4, ⟨14, 0, some 1⟩)]

/-- The extracted path on `c2Wpreds`. -/
def c2Wout : List (Nat × Nat × Duration) := [(1, 0, 5), (2, 0, 6), (3, 0, 7)]

/-- C2, witness: the contribution law applied to the `long_path` map. -/
theorem claim2_witness :
    extract_critical_path c2Wpreds = Except.ok c2Wout ∧
    ((∀ h0 : 0 < c2Wout.length,
      ∃ n, alookup c2Wpreds (c2Wout.get ⟨0, h0⟩).1 = some n ∧
        (c2Wout.get ⟨0, h0⟩).2.2 = n.duration) ∧
    (∀ i, ∀ hi1 : i + 1 < c2Wout.length,
      ∃ np nc,
        alookup c2Wpreds (c2Wout.get ⟨i, Nat.lt_of_succ_lt hi1⟩).1 = some np ∧
        alookup c2Wpreds (c2Wout.get ⟨i + 1, hi1⟩).1 = some nc ∧
        nc.prev = some (c2Wout.get ⟨i, Nat.lt_of_succ_lt hi1⟩).1 ∧
        (c2Wout.get ⟨i + 1, hi1⟩).2.2 = nc.duration - np.duration ∧
        (np.duration ≤ nc.duration →
          nc.duration = np.duration + (c2Wout.get ⟨i + 1, hi1⟩).2.2))) :=
  ⟨by decide, claim2_contribution_law c2Wpreds c2Wout (by decide)⟩

/-- C3: `extract_critical_path` returns an error exactly when the
`prev`-pointer chain starting from the maximum-cumulative-duration node
revisits a node, and for every acyclic predecessors map it terminates
with a success whose keys are pairwise distinct. -/
theorem claim3_cycle_detection {K V : Type} [DecidableEq K]
    (preds : List (K × CriticalPathNode K V)) :
    ((∃ msg, extract_critical_path preds = Except.error msg) ↔ Revisits preds) ∧
    (Acyclic preds →
      ∃ out, extract_critical_path preds = Except.ok out ∧
        (out.map (fun x => x.1)).Nodup) := by
  have hnn := walkCP_top_ne_none preds
  have herr := walkCP_error_iff preds (preds.length + 2) (startKey preds) [] []
  constructor
  · cases hw : walkCP preds (preds.length + 2) (startKey preds) [] [] with
    | none => exact absurd hw hnn
    | some r =>
      cases r with
      | ok path =>
        have hex : extract_critical_path preds =
            Except.ok (diffAdjacent path.reverse) := by
          unfold extract_critical_path
          rw [hw]
        constructor
        · rintro ⟨msg, hmsg⟩
          rw [hex] at hmsg
          exact Except.noConfusion hmsg
        · intro hrev
          have hOff : Offends (chainList preds (preds.length + 2) (startKey preds)) [] :=
            (Offends_nil_visited _).mpr hrev
          have hiserr := herr.mpr hOff
          rw [hw, isErrO_some_ok] at hiserr
          exact hiserr.elim
      | error msg =>
        have hex : extract_critical_path preds = Except.error msg := by
          unfold extract_critical_path
          rw [hw]
        constructor
        · intro _
          have hOff := herr.mp (by rw [hw, isErrO_some_error]; trivial)
          exact (Offends_nil_visited _).mp hOff
        · intro _
          exact ⟨msg, hex⟩
  · intro hA
    cases hw : walkCP preds (preds.length + 2) (startKey preds) [] [] with
    | none => exact absurd hw hnn
    | some r =>
      cases r with
      | error msg =>
        have hOff := herr.mp (by rw [hw, isErrO_some_error]; trivial)
        exact absurd (chainOf_nodup_of_acyclic hA) ((Offends_nil_visited _).mp hOff)
      | ok path =>
        have hex : extract_critical_path preds =
            Except.ok (diffAdjacent path.reverse) := by
          unfold extract_critical_path
          rw [hw]
        refine ⟨diffAdjacent path.reverse, hex, ?_⟩
        have hpath : path = chainEntries preds (preds.length + 2) (startKey preds) := by
          have h2 := walkCP_ok_eq preds (preds.length + 2) (startKey preds) [] [] path hw
          rw [List.nil_append] at h2
          exact h2
        have hcnodup : (chainList preds (preds.length + 2) (startKey preds)).Nodup :=
          chainOf_nodup_of_acyclic hA
        obtain ⟨rest, hpref⟩ :=
          chainEntries_keys_prefix preds (preds.length + 2) (startKey preds)
        have hkeys : ((chainEntries preds (preds.length + 2) (startKey preds)).map
            (fun x => x.1)).Nodup := by
          refine List.Nodup.sublist ?_ hcnodup
          rw [hpref]
          exact List.sublist_append_left _ _
        rw [diffAdjacent_map_fst, List.map_reverse, List.nodup_reverse, hpath]
        exact hkeys

instance Acyclic.instDecidable {K V : Type} [DecidableEq K]
    (preds : List (K × CriticalPathNode K V)) : Decidable (Acyclic preds) := by
  unfold Acyclic
  infer_instance

/-- A one-node acyclic map, concrete input for the C3 witness. -/
def c3Preds : List (Nat × CriticalPathNode Nat Nat) := [(1, ⟨3, 0, none⟩)]

/-- C3, witness: the theorem applied to an acyclic one-node map. -/
theorem claim3_witness :
    Acyclic c3Preds ∧
    ∃ out, extract_critical_path c3Preds = Except.ok out ∧
      (out.map (fun x => x.1)).Nodup :=
  ⟨by decide, (claim3_cycle_detection c3Preds).2 (by decide)⟩

/-- C4: over any sequence of evaluations processed by the receiver, the
`first_edge_to_load` entry of a package `d` is the first package `p`
whose load result listed `d` as a dependency package with `d ≠ p`
(later loads do not overwrite), and each load evaluation of a package
`p` present in the (just-updated) map gets a dependency on the load key
of `first_edge_to_load[p]` appended to its `dep_keys`. -/
theorem claim4_first_writer_wins :
    (∀ (evs : List Evaluation) (d : PackageLabel),
      alookup (processLoads [] evs) d = firstLister d evs) ∧
    (∀ (m : List (PackageLabel × PackageLabel)) (e : Evaluation) (p : PackageLabel),
      e.key = NodeKey.InterpreterResultsKey p →
      (enrich_load m e).2.dep_keys =
        e.dep_keys ++
          ((alookup (enrich_load m e).1 p).toList.map NodeKey.InterpreterResultsKey)) := by
  constructor
  · intro evs d
    rw [processLoads_lookup]
    rfl
  · intro m e p h
    exact enrich_load_dep_keys m e p h

/-- The spec's load-enrichment scenario (two loads), concrete input for
the C4 witness. -/
def c4Evs : List Evaluation :=
  [⟨NodeKey.InterpreterResultsKey 1, NodeDuration.zero, [], [], none, some [[2, 3]]⟩,
   ⟨NodeKey.InterpreterResultsKey 2, NodeDuration.zero, [], [], none, some [[3]]⟩]

/-- A one-entry map and load evaluation, concrete input for the C4
witness. -/
def c4Map : List (PackageLabel × PackageLabel) := [(1, 2)]

/-- The load evaluation used in the C4 witness. -/
def c4Eval : Evaluation :=
  ⟨NodeKey.InterpreterResultsKey 1, NodeDuration.zero, [], [], none, none⟩

/-- C4, witness: the map equals `firstLister` on the spec's two-load
scenario (where package 3 was first discovered by package 1), and the
dep-append fires on a map containing the loading package. -/
theorem claim4_witness :
    (alookup (processLoads [] c4Evs) 3 = firstLister 3 c4Evs ∧ firstLister 3 c4Evs = some 1) ∧
    (enrich_load c4Map c4Eval).2.dep_keys =
      c4Eval.dep_keys ++
        ((alookup (enrich_load c4Map c4Eval).1 1).toList.map NodeKey.InterpreterResultsKey) :=
  ⟨⟨claim4_first_writer_wins.1 c4Evs 3, by decide⟩,
    claim4_first_writer_wins.2 c4Map c4Eval 1 rfl⟩

/-- C10: the `first_edge_to_load` map never maps a package to itself
(every stored pair has distinct key and value, hence every lookup
result differs from the looked-up package), and load enrichment never
appends a self-dependency: the dep appended to a load evaluation of
package `p` is the load key of a package different from `p`. -/
theorem claim10_no_self_dependency :
    (∀ evs : List Evaluation, SelfFree (processLoads [] evs)) ∧
    (∀ (evs : List Evaluation) (d p : PackageLabel),
      alookup (processLoads [] evs) d = some p → d ≠ p) ∧
    (∀ (m : List (PackageLabel × PackageLabel)) (e : Evaluation) (p : PackageLabel),
      SelfFree m → e.key = NodeKey.InterpreterResultsKey p →
      (enrich_load m e).2.dep_keys = e.dep_keys ∨
      ∃ q, q ≠ p ∧
        (enrich_load m e).2.dep_keys = e.dep_keys ++ [NodeKey.InterpreterResultsKey q]) := by
  have hnil : SelfFree ([] : List (PackageLabel × PackageLabel)) := by
    intro q hq
    exact absurd hq (List.not_mem_nil q)
  refine ⟨?_, ?_, ?_⟩
  · intro evs
    exact SelfFree_processLoads evs hnil
  · intro evs d p hlk
    exact SelfFree_processLoads evs hnil (d, p) (alookup_mem hlk)
  · intro m e p hm hek
    have hm2 : SelfFree (enrich_load m e).1 := SelfFree_enrich_load hm
    have hd := enrich_load_dep_keys m e p hek
    cases halk : alookup (enrich_load m e).1 p with
    | none =>
      left
      rw [hd, halk]
      simp
    | some q =>
      right
      refine ⟨q, ?_, ?_⟩
      · exact Ne.symm (hm2 (p, q) (alookup_mem halk))
      · rw [hd, halk]
        rfl

instance SelfFree.instDecidable (m : List (PackageLabel × PackageLabel)) :
    Decidable (SelfFree m) := by
  unfold SelfFree
  infer_instance

/-- The load evaluation used in the C10 witness. -/
def c10Eval : Evaluation :=
  ⟨NodeKey.InterpreterResultsKey 1, NodeDuration.zero, [], [], none, none⟩

/-- C10, witness: on the self-free map `[(1, 2)]`, enrichment of a load
of package 1 appends no self-dependency. -/
theorem claim10_witness :
    (enrich_load [(1, 2)] c10Eval).2.dep_keys = c10Eval.dep_keys ∨
    ∃ q, q ≠ 1 ∧
      (enrich_load [(1, 2)] c10Eval).2.dep_keys =
        c10Eval.dep_keys ++ [NodeKey.InterpreterResultsKey q] :=
  claim10_no_self_dependency.2.2 [(1, 2)] c10Eval 1 (by decide) rfl

/-- `entryOf` keys out exactly the spec's omitted entries. -/
theorem entryOf_none_iff (key : NodeKey) (data : NodeData) :
    entryOf key data = none ↔ omittedBySpec key data = true := by
  obtain ⟨dact, ddur, dspans⟩ := data
  cases key <;> cases dact <;> simp [entryOf, omittedBySpec, Option.isNone]

theorem filterMap_entry_eq (cp : List (NodeKey × NodeData × Option Duration)) :
    (cp.filterMap (fun x => (entryOf x.1 x.2.1).map (fun e => (e, x.2.1, x.2.2)))).map
        toEntry2 =
      (cp.filter (fun x => !(omittedBySpec x.1 x.2.1))).map
        (fun x => toEntry2 ((entryOf x.1 x.2.1).getD EntryKind.ComputeCriticalPath,
          x.2.1, x.2.2)) := by
  induction cp with
  | nil => rfl
  | cons x xs ih =>
    simp only [List.filterMap_cons, List.filter_cons]
    cases he : entryOf x.1 x.2.1 with
    | none =>
      have homit : omittedBySpec x.1 x.2.1 = true := (entryOf_none_iff x.1 x.2.1).mp he
      rw [homit]
      simpa using ih
    | some e =>
      have homit : omittedBySpec x.1 x.2.1 = false := by
        cases h2 : omittedBySpec x.1 x.2.1 with
        | true =>
          rw [(entryOf_none_iff x.1 x.2.1).mpr h2] at he
          cases he
        | false => rfl
      rw [homit]
      simp only [Option.map_some', List.map_cons, Bool.not_false, if_pos]
      rw [ih, he]
      rfl

/-- C5: in the emitted summary, entries whose key is
`EnsureProjectedArtifactKey`, `EnsureTransitiveSetProjectionKey`,
`DeferredCompute`, `DeferredResolve` or `ConfiguredTargetNodeKey`
produce no report entry, a `BuildKey` entry with `action = None`
produces no report entry, and every other critical-path entry produces
exactly one report record, in order, followed by the synthetic
`ComputeCriticalPath` entry. -/
theorem claim5_summary_filter (cp : List (NodeKey × NodeData × Option Duration))
    (compute_elapsed : Duration) :
    (∀ (key : NodeKey) (data : NodeData),
      (entryOf key data = none) ↔ (omittedBySpec key data = true)) ∧
    critical_path2 cp compute_elapsed =
      (cp.filter (fun x => !(omittedBySpec x.1 x.2.1))).map
        (fun x => toEntry2 ((entryOf x.1 x.2.1).getD EntryKind.ComputeCriticalPath,
          x.2.1, x.2.2)) ++
      [toEntry2 (EntryKind.ComputeCriticalPath, metaEntryData compute_elapsed,
        some compute_elapsed)] := by
  refine ⟨entryOf_none_iff, ?_⟩
  unfold critical_path2
  rw [List.map_append]
  rw [filterMap_entry_eq]
  rfl

/-! #### C6: the longest-path-graph backend -/

/-- C6: in the longest-path-graph backend, a `process_node` call with a
key already in the builder records one soft error and leaves everything
else (in particular the graph) unchanged; a vertex/edge overflow
poisons the backend with a stored hard error; and once poisoned, every
subsequent `process_node` call leaves the backend untouched. -/
theorem claim6_graph_backend_errors (s : LongestPathGraphBackend) (key : NodeKey)
    (action : Option Action) (duration : NodeDuration) (dep_keys : List NodeKey)
    (span_ids : List Span) :
    (∀ b, s.builder = Except.ok b → key ∈ b.keys →
      LongestPathGraphBackend.process_node s key action duration dep_keys span_ids =
        { s with soft_errors := s.soft_errors + 1 }) ∧
    (∀ b, s.builder = Except.ok b → key ∉ b.keys →
      (b.vertex_cap < b.keys.length + 1 ∨ b.edge_cap < b.edges.length + dep_keys.length) →
      (LongestPathGraphBackend.process_node s key action duration dep_keys
          span_ids).builder = Except.error PushError.Overflow) ∧
    (∀ err, s.builder = Except.error err →
      LongestPathGraphBackend.process_node s key action duration dep_keys span_ids = s) := by
  obtain ⟨sb, stla, sse⟩ := s
  refine ⟨?_, ?_, ?_⟩
  · intro b hb hk
    simp only at hb
    subst hb
    have hp : b.push key dep_keys ⟨action, duration, span_ids⟩ =
        Except.error PushError.DuplicateKey := by
      unfold GraphBuilder.push
      rw [if_pos hk]
    dsimp only [LongestPathGraphBackend.process_node]
    rw [hp]
  · intro b hb hk hover
    simp only at hb
    subst hb
    have hp : b.push key dep_keys ⟨action, duration, span_ids⟩ =
        Except.error PushError.Overflow := by
      unfold GraphBuilder.push
      rw [if_neg hk, if_pos hover]
    dsimp only [LongestPathGraphBackend.process_node]
    rw [hp]
  · intro err herr
    simp only at herr
    subst herr
    dsimp only [LongestPathGraphBackend.process_node]

/-- A builder holding one key, for the C6 witness. -/
def c6Builder : GraphBuilder :=
  ⟨10, 10, [NodeKey.BuildKey 1], [⟨none, ⟨0, 0⟩, []⟩], []⟩

/-- A builder with exhausted vertex capacity, for the C6 witness. -/
def c6FullBuilder : GraphBuilder :=
  ⟨1, 10, [NodeKey.BuildKey 1], [⟨none, ⟨0, 0⟩, []⟩], []⟩

/-- C6, witness: a duplicate push records one soft error and keeps the
state, a push past the vertex capacity poisons the builder, and a
poisoned backend ignores calls. -/
theorem claim6_witness :
    (LongestPathGraphBackend.process_node ⟨Except.ok c6Builder, [], 0⟩ (NodeKey.BuildKey 1)
        none ⟨1, 1⟩ [] [] =
      { (⟨Except.ok c6Builder, [], 0⟩ : LongestPathGraphBackend) with soft_errors := 0 + 1 }) ∧
    ((LongestPathGraphBackend.process_node ⟨Except.ok c6FullBuilder, [], 0⟩
        (NodeKey.BuildKey 2) none ⟨1, 1⟩ [] []).builder =
      Except.error PushError.Overflow) ∧
    (LongestPathGraphBackend.process_node
        ⟨Except.error PushError.Overflow, [], 0⟩ (NodeKey.BuildKey 3) none ⟨1, 1⟩ [] [] =
      ⟨Except.error PushError.Overflow, [], 0⟩) :=
  ⟨(claim6_graph_backend_errors ⟨Except.ok c6Builder, [], 0⟩ (NodeKey.BuildKey 1)
      none ⟨1, 1⟩ [] []).1 c6Builder rfl (by decide),
    (claim6_graph_backend_errors ⟨Except.ok c6FullBuilder, [], 0⟩ (NodeKey.BuildKey 2)
      none ⟨1, 1⟩ [] []).2.1 c6FullBuilder rfl (by decide) (by decide),
    (claim6_graph_backend_errors ⟨Except.error PushError.Overflow, [], 0⟩
      (NodeKey.BuildKey 3) none ⟨1, 1⟩ [] []).2.2 PushError.Overflow rfl⟩

/-- Keys produced by `NodeKey::from_any` are always recognized. -/
theorem from_any_recognized (a : AnyKey) (k : NodeKey)
    (h : NodeKey.from_any a = some k) : k.recognized = true := by
  cases a <;> simp only [NodeKey.from_any, Option.some.injEq] at h <;>
    first
    | (subst h; rfl)
    | exact Option.noConfusion h

/-- The `Evaluation` built by `key_activated` (when the key is
recognized) always carries the projected key and the boundary-filtered
deps, whatever the activation data. -/
theorem key_activated_some (key : AnyKey) (deps : List AnyKey)
    (activation_data : ActivationData) (k : NodeKey)
    (hfa : NodeKey.from_any key = some k) :
    ∃ ev, key_activated key deps activation_data = some ev ∧
      ev.key = k ∧ ev.dep_keys = deps.filterMap NodeKey.from_any := by
  unfold key_activated
  rw [hfa]
  refine ⟨_, rfl, ?_, ?_⟩ <;>
    (cases activation_data with
    | Cached => rfl
    | Evaluated payload =>
      cases payload with
      | none => rfl
      | some pd => cases pd <;> rfl)

/-- C7: a `key_activated` call whose key does not project to one of the
eight recognized `NodeKey` variants produces no `Evaluation` at all,
and every produced `Evaluation` has `dep_keys` equal to the
boundary-filtered deps, so each of its deps projects to a recognized
variant (unrecognized dependencies are dropped). -/
theorem claim7_boundary_filter (key : AnyKey) (deps : List AnyKey)
    (activation_data : ActivationData) :
    (NodeKey.from_any key = none → key_activated key deps activation_data = none) ∧
    (∀ ev, key_activated key deps activation_data = some ev →
      ev.dep_keys = deps.filterMap NodeKey.from_any ∧
      ∀ d, d ∈ ev.dep_keys → d.recognized = true) := by
  constructor
  · intro h
    unfold key_activated
    rw [h]
  · intro ev hev
    cases hfa : NodeKey.from_any key with
    | none =>
      unfold key_activated at hev
      rw [hfa] at hev
      cases hev
    | some k =>
      obtain ⟨ev2, hev2, _, hdeps⟩ := key_activated_some key deps activation_data k hfa
      rw [hev2] at hev
      have hee : ev2 = ev := Option.some.inj hev
      subst hee
      refine ⟨hdeps, ?_⟩
      intro d hd
      rw [hdeps] at hd
      obtain ⟨a, _, ha⟩ := List.mem_filterMap.mp hd
      exact from_any_recognized a d ha

/-- C7, witness: an unrecognized key produces no evaluation; a
recognized key with one unrecognized and one recognized dep keeps only
the recognized dep. -/
theorem claim7_witness :
    key_activated (AnyKey.Unrecognized 0) [AnyKey.AnalysisKey 2] ActivationData.Cached =
      none ∧
    ((⟨NodeKey.BuildKey 1, NodeDuration.zero, [NodeKey.AnalysisKey 2], [], none, none⟩ :
        Evaluation).dep_keys =
      [AnyKey.Unrecognized 0, AnyKey.AnalysisKey 2].filterMap NodeKey.from_any ∧
    ∀ d, d ∈ (⟨NodeKey.BuildKey 1, NodeDuration.zero, [NodeKey.AnalysisKey 2], [], none,
        none⟩ : Evaluation).dep_keys → d.recognized = true) :=
  ⟨(claim7_boundary_filter (AnyKey.Unrecognized 0) [AnyKey.AnalysisKey 2]
      ActivationData.Cached).1 rfl,
    (claim7_boundary_filter (AnyKey.BuildKey 1)
      [AnyKey.Unrecognized 0, AnyKey.AnalysisKey 2] ActivationData.Cached).2
      ⟨NodeKey.BuildKey 1, NodeDuration.zero, [NodeKey.AnalysisKey 2], [], none, none⟩ rfl⟩

/-- C8: for an evaluated analysis or interpreter/load activation
payload, the produced `Evaluation` has both `NodeDuration` components
equal to the single reported duration; for a cached/not-run activation,
the `Evaluation` keeps duration zero and both optional payloads absent
while still carrying the projected key and the boundary-filtered
dependency edges. -/
theorem claim8_activation_durations (key : AnyKey) (deps : List AnyKey) :
    (∀ (duration : Duration) (spans : List Span) (ev : Evaluation),
      key_activated key deps (ActivationData.Evaluated
          (some (ActivationPayload.AnalysisKeyActivationData duration spans))) = some ev →
      ev.duration.user = duration ∧ ev.duration.total = duration) ∧
    (∀ (duration : Duration) (result : Except Unit LoadResult) (spans : List Span)
        (ev : Evaluation),
      key_activated key deps (ActivationData.Evaluated
          (some (ActivationPayload.IntepreterResultsKeyActivationData duration result
            spans))) = some ev →
      ev.duration.user = duration ∧ ev.duration.total = duration) ∧
    (∀ ev, key_activated key deps ActivationData.Cached = some ev →
      ev.duration = NodeDuration.zero ∧ ev.action = none ∧ ev.load_result = none ∧
      NodeKey.from_any key = some ev.key ∧
      ev.dep_keys = deps.filterMap NodeKey.from_any) := by
  refine ⟨?_, ?_, ?_⟩
  · intro duration spans ev hev
    cases hfa : NodeKey.from_any key with
    | none =>
      unfold key_activated at hev
      rw [hfa] at hev
      cases hev
    | some k =>
      unfold key_activated at hev
      rw [hfa] at hev
      cases Option.some.inj hev
      exact ⟨rfl, rfl⟩
  · intro duration result spans ev hev
    cases hfa : NodeKey.from_any key with
    | none =>
      unfold key_activated at hev
      rw [hfa] at hev
      cases hev
    | some k =>
      unfold key_activated at hev
      rw [hfa] at hev
      cases Option.some.inj hev
      exact ⟨rfl, rfl⟩
  · intro ev hev
    cases hfa : NodeKey.from_any key with
    | none =>
      unfold key_activated at hev
      rw [hfa] at hev
      cases hev
    | some k =>
      unfold key_activated at hev
      rw [hfa] at hev
      cases Option.some.inj hev
      exact ⟨rfl, rfl, rfl, rfl, rfl⟩

/-- C8, witness: the analysis, interpreter and cached cases at concrete
inputs. -/
theorem claim8_witness :
    ((⟨NodeKey.AnalysisKey 1, ⟨7, 7⟩, [], [4], none, none⟩ : Evaluation).duration.user = 7 ∧
      (⟨NodeKey.AnalysisKey 1, ⟨7, 7⟩, [], [4], none, none⟩ :
        Evaluation).duration.total = 7) ∧
    ((⟨NodeKey.InterpreterResultsKey 2, ⟨9, 9⟩, [], [], none, some [[5]]⟩ :
        Evaluation).duration.user = 9 ∧
      (⟨NodeKey.InterpreterResultsKey 2, ⟨9, 9⟩, [], [], none, some [[5]]⟩ :
        Evaluation).duration.total = 9) ∧
    ((⟨NodeKey.BuildKey 3, NodeDuration.zero, [NodeKey.AnalysisKey 1], [], none, none⟩ :
        Evaluation).duration = NodeDuration.zero ∧
      (⟨NodeKey.BuildKey 3, NodeDuration.zero, [NodeKey.AnalysisKey 1], [], none, none⟩ :
        Evaluation).action = none ∧
      (⟨NodeKey.BuildKey 3, NodeDuration.zero, [NodeKey.AnalysisKey 1], [], none, none⟩ :
        Evaluation).load_result = none ∧
      NodeKey.from_any (AnyKey.BuildKey 3) =
        some (⟨NodeKey.BuildKey 3, NodeDuration.zero, [NodeKey.AnalysisKey 1], [], none,
          none⟩ : Evaluation).key ∧
      (⟨NodeKey.BuildKey 3, NodeDuration.zero, [NodeKey.AnalysisKey 1], [], none, none⟩ :
        Evaluation).dep_keys =
        [AnyKey.AnalysisKey 1, AnyKey.Unrecognized 0].filterMap NodeKey.from_any) :=
  ⟨(claim8_activation_durations (AnyKey.AnalysisKey 1) []).1 7 [4]
      ⟨NodeKey.AnalysisKey 1, ⟨7, 7⟩, [], [4], none, none⟩ rfl,
    (claim8_activation_durations (AnyKey.InterpreterResultsKey 2) []).2.1 9
      (Except.ok [[5]]) []
      ⟨NodeKey.InterpreterResultsKey 2, ⟨9, 9⟩, [], [], none, some [[5]]⟩ rfl,
    (claim8_activation_durations (AnyKey.BuildKey 3)
      [AnyKey.AnalysisKey 1, AnyKey.Unrecognized 0]).2.2
      ⟨NodeKey.BuildKey 3, NodeDuration.zero, [NodeKey.AnalysisKey 1], [], none, none⟩ rfl⟩

end BuildSignals

